import Mathlib

/-!
Shallow embedding of `src/lru_cache.py` (class `LRUCache`).

Modelling choices, line by line against the source:

* A Python `Node` carries `key`, `value`, `expire_at` plus `prev`/`next`
  pointers.  The doubly linked chain between the two sentinel nodes is
  embedded as a Lean `List Node`, most-recently-used first (the element
  right after the `head` sentinel is the list head; the element right
  before the `tail` sentinel is the last element).  Pointer surgery
  (`_remove`, `_add_to_head`) becomes removal from / consing onto that
  list.  The sentinels themselves carry no data and are not represented.
* The dictionary `self.cache` (key -> Node) is embedded as an explicit
  association list `List (Int × Node)`, updated by the very statements
  that update it in the source, so that keeping it in lock-step with the
  chain is a property to be proved and not one true by construction.
* `time.time()` is an external input: every public operation takes the
  current time `now : Int` as an extra argument (the source reads the
  clock once per logical step; within one call we pass the same `now`).
* Python run-time faults are made explicit: `del d[k]` on a missing key
  (KeyError) and unlinking a sentinel (`None.next`, AttributeError, which
  happens when the eviction loop runs on an empty chain) make the
  operation return `none`.  `put` and `resize` therefore return
  `Option LRUCache`; `get` never faults in the source and stays total.
-/

/-- One cache record: `Node.__init__` stores `key`, `value`, `expire_at`.
The `prev`/`next` links are represented by the position of the node in the
chain list. -/
structure Node where
  key : Int
  value : Int
  expire_at : Int

deriving instance DecidableEq, Repr for Node

/-- The mutable state of `LRUCache`: `self.capacity`, the dictionary
`self.cache` (as an association list) and the doubly linked chain between
the sentinels (as a list, MRU first). -/
structure LRUCache where
  capacity : Int
  cache : List (Int × Node)
  chain : List Node

deriving instance DecidableEq, Repr for LRUCache

/-- `LRUCache.__init__`: stores the given capacity unchecked and starts
with an empty dictionary and an empty chain (head and tail sentinels
linked to each other). -/
def LRUCache.init (capacity : Int) : LRUCache :=
  { capacity := capacity, cache := [], chain := [] }

/-- Dictionary lookup, `self.cache[key]` / `key in self.cache`. -/
def dictGet : List (Int × Node) → Int → Option Node
  | [], _ => none
  | (k1, n) :: rest, k => if k1 = k then some n else dictGet rest k

/-- Dictionary assignment `self.cache[key] = node`: replaces the binding
in place when the key is present, otherwise appends a new binding. -/
def dictSet : List (Int × Node) → Int → Node → List (Int × Node)
  | [], k, n => [(k, n)]
  | (k1, n1) :: rest, k, n =>
      if k1 = k then (k, n) :: rest else (k1, n1) :: dictSet rest k n

/-- Dictionary deletion `del self.cache[key]`: `none` models the KeyError
raised when the key is absent. -/
def dictDel : List (Int × Node) → Int → Option (List (Int × Node))
  | [], _ => none
  | (k1, n1) :: rest, k =>
      if k1 = k then some rest
      else (dictDel rest k).map (fun r => (k1, n1) :: r)

/-- Total variant of dictionary deletion, used where the source has just
looked the key up, so the deletion cannot raise. -/
def dictErase : List (Int × Node) → Int → List (Int × Node)
  | [], _ => []
  | (k1, n1) :: rest, k => if k1 = k then rest else (k1, n1) :: dictErase rest k

/-- `LRUCache._remove(node)` on the chain: unlink the (unique, under the
well-formedness invariant) node carrying the given key. -/
def eraseKey : List Node → Int → List Node
  | [], _ => []
  | n :: rest, k => if n.key = k then rest else n :: eraseKey rest k

/-- The key set of the dictionary, in binding order. -/
def keysOf (d : List (Int × Node)) : List Int := d.map Prod.fst

/-- `LRUCache._is_expired(node)`: `node.expire_at < time.time()`. -/
def isExpired (now : Int) (n : Node) : Bool := n.expire_at < now

/-- `LRUCache._evict_expired` walks from `self.tail.prev` toward the head
sentinel.  We run it on the REVERSED chain (LRU first): unlink each
expired node and delete it from the dictionary, stop at the first
non-expired node.  A failing dictionary deletion aborts with `none`. -/
def sweepRev (now : Int) : List (Int × Node) → List Node →
    Option (List (Int × Node) × List Node)
  | cache, [] => some (cache, [])
  | cache, n :: rest =>
      if isExpired now n then
        match dictDel cache n.key with
        | none => none
        | some cache1 => sweepRev now cache1 rest
      else some (cache, n :: rest)

/-- `LRUCache._evict_expired` acting on the chain in MRU-first order. -/
def evictExpired (now : Int) (cache : List (Int × Node)) (chain : List Node) :
    Option (List (Int × Node) × List Node) :=
  match sweepRev now cache chain.reverse with
  | none => none
  | some (cache1, rchain1) => some (cache1, rchain1.reverse)

/-- The capacity-eviction loop
`while len(self.cache) > self.capacity: lru = self.tail.prev; ...`,
run on the REVERSED chain (LRU first).  When the loop body runs with an
empty chain, `lru` is the head sentinel and `self._remove(lru)`
dereferences `head.prev = None` (AttributeError): modelled by `none`. -/
def evictLoopRev (cap : Int) : List (Int × Node) → List Node →
    Option (List (Int × Node) × List Node)
  | cache, [] =>
      if cap < (cache.length : Int) then none else some (cache, [])
  | cache, n :: rest =>
      if cap < (cache.length : Int) then
        match dictDel cache n.key with
        | none => none
        | some cache1 => evictLoopRev cap cache1 rest
      else some (cache, n :: rest)

/-- The capacity-eviction loop acting on the chain in MRU-first order. -/
def capacityEvict (cap : Int) (cache : List (Int × Node)) (chain : List Node) :
    Option (List (Int × Node) × List Node) :=
  match evictLoopRev cap cache chain.reverse with
  | none => none
  | some (cache1, rchain1) => some (cache1, rchain1.reverse)

/-- `LRUCache.get(key)`: miss returns `-1`; an expired hit unlinks the
node, deletes the key and returns `-1`; a live hit relinks the node at
the head (promotion) and returns its value.  The updated state is
returned alongside the result. -/
def LRUCache.get (c : LRUCache) (key : Int) (now : Int) : LRUCache × Int :=
  match dictGet c.cache key with
  | none => (c, -1)
  | some node =>
      if isExpired now node then
        ({ c with cache := dictErase c.cache key,
                  chain := eraseKey c.chain key }, -1)
      else
        ({ c with chain := node :: eraseKey c.chain key }, node.value)

/-- The first half of `LRUCache.put(key, value, ttl)` before the
evictions: `expire_at = now + ttl` (no ttl validation in the source);
when the key exists, update value and expiry of its node in place and
relink it at the head; otherwise create a fresh node, store it in the
dictionary and link it at the head. -/
def putFront (c : LRUCache) (key : Int) (value : Int) (ttl : Int)
    (now : Int) : LRUCache :=
  let node : Node := { key := key, value := value, expire_at := now + ttl }
  if (dictGet c.cache key).isSome then
    { c with cache := dictSet c.cache key node,
             chain := node :: eraseKey c.chain key }
  else
    { c with cache := dictSet c.cache key node,
             chain := node :: c.chain }

/-- `LRUCache.put(key, value, ttl)`: the front update/insert, then
`_evict_expired`, then the capacity-eviction loop with the unchanged
`self.capacity`. -/
def LRUCache.put (c : LRUCache) (key : Int) (value : Int) (ttl : Int)
    (now : Int) : Option LRUCache :=
  let c1 : LRUCache := putFront c key value ttl now
  match evictExpired now c1.cache c1.chain with
  | none => none
  | some (cache2, chain2) =>
      match capacityEvict c.capacity cache2 chain2 with
      | none => none
      | some (cache3, chain3) =>
          some { c with cache := cache3, chain := chain3 }

/-- `LRUCache.resize(new_capacity)`: sets `self.capacity` unchecked, runs
`_evict_expired`, then the capacity-eviction loop against the new
capacity. -/
def LRUCache.resize (c : LRUCache) (new_capacity : Int) (now : Int) :
    Option LRUCache :=
  match evictExpired now c.cache c.chain with
  | none => none
  | some (cache2, chain2) =>
      match capacityEvict new_capacity cache2 chain2 with
      | none => none
      | some (cache3, chain3) =>
          some { capacity := new_capacity, cache := cache3, chain := chain3 }

/-- A public operation together with the clock value it observes. -/
inductive Op where
  | get (key now : Int)
  | put (key value ttl now : Int)
  | resize (new_capacity now : Int)

deriving instance DecidableEq, Repr for Op

/-- Apply one public operation to the cache state. -/
def applyOp (c : LRUCache) : Op → Option LRUCache
  | Op.get k now => some (LRUCache.get c k now).1
  | Op.put k v ttl now => LRUCache.put c k v ttl now
  | Op.resize cap now => LRUCache.resize c cap now

/-- Run a sequence of public operations; a fault anywhere aborts. -/
def runOps : LRUCache → List Op → Option LRUCache
  | c, [] => some c
  | c, op :: rest =>
      match applyOp c op with
      | none => none
      | some c1 => runOps c1 rest

/-- Lock-step well-formedness of a dictionary and a chain: keys on both
sides are duplicate-free, every chain node is found by looking its key up
in the dictionary, and every dictionary binding points at a node that is
linked into the chain under its own key. -/
def Sync (cache : List (Int × Node)) (chain : List Node) : Prop :=
  (keysOf cache).Nodup ∧ (chain.map Node.key).Nodup ∧
  (∀ n ∈ chain, dictGet cache n.key = some n) ∧
  (∀ p ∈ cache, p.2 ∈ chain ∧ p.2.key = p.1)

instance instDecidableSync (cache : List (Int × Node)) (chain : List Node) :
    Decidable (Sync cache chain) := by
  unfold Sync
  exact inferInstance

/-- Well-formedness of a cache state: dictionary and chain in lock-step. -/
def WF (c : LRUCache) : Prop := Sync c.cache c.chain

instance instDecidableWF (c : LRUCache) : Decidable (WF c) := by
  unfold WF
  exact inferInstance

/-! ### Dictionary lemmas -/

@[simp] theorem keysOf_nil : keysOf ([] : List (Int × Node)) = [] := rfl

@[simp] theorem keysOf_cons (p : Int × Node) (d : List (Int × Node)) :
    keysOf (p :: d) = p.1 :: keysOf d := rfl

theorem keysOf_append (d1 d2 : List (Int × Node)) :
    keysOf (d1 ++ d2) = keysOf d1 ++ keysOf d2 := List.map_append _ _ _

theorem mem_keysOf {d : List (Int × Node)} {p : Int × Node} (h : p ∈ d) :
    p.1 ∈ keysOf d :=
  List.mem_map.mpr ⟨p, h, rfl⟩

theorem dictGet_none_iff (d : List (Int × Node)) (k : Int) :
    dictGet d k = none ↔ k ∉ keysOf d := by
  induction d with
  | nil => simp [dictGet, keysOf]
  | cons p rest ih =>
      obtain ⟨k1, n⟩ := p
      by_cases h : k1 = k
      · subst h
        simp [dictGet, keysOf]
      · simp [dictGet, keysOf, h, ih]
        tauto

theorem dictGet_mem {d : List (Int × Node)} {k : Int} {n : Node}
    (h : dictGet d k = some n) : (k, n) ∈ d := by
  induction d with
  | nil => simp [dictGet] at h
  | cons p rest ih =>
      obtain ⟨k1, n1⟩ := p
      by_cases hk : k1 = k
      · subst hk
        simp [dictGet] at h
        subst h
        exact List.mem_cons_self _ _
      · simp [dictGet, hk] at h
        exact List.mem_cons_of_mem _ (ih h)

theorem dictGet_isSome_iff (d : List (Int × Node)) (k : Int) :
    (dictGet d k).isSome ↔ k ∈ keysOf d := by
  cases h : dictGet d k with
  | none => simp [(dictGet_none_iff d k).mp h]
  | some n => simp [mem_keysOf (dictGet_mem h)]

theorem mem_dictGet {d : List (Int × Node)} {k : Int} {n : Node}
    (hnd : (keysOf d).Nodup) (h : (k, n) ∈ d) : dictGet d k = some n := by
  induction d with
  | nil => simp at h
  | cons p rest ih =>
      obtain ⟨k1, n1⟩ := p
      rw [keysOf] at hnd
      simp only [List.map_cons, List.nodup_cons] at hnd
      rcases List.mem_cons.1 h with h1 | h1
      · obtain ⟨hk, hn⟩ := Prod.mk.injEq .. ▸ h1
        simp [dictGet, hk.symm, hn]
      · have hk : k1 ≠ k := by
          intro he
          exact hnd.1 (he ▸ mem_keysOf h1)
        simp [dictGet, hk, ih hnd.2 h1]

theorem dictGet_dictSet_self (d : List (Int × Node)) (k : Int) (n : Node) :
    dictGet (dictSet d k n) k = some n := by
  induction d with
  | nil => simp [dictSet, dictGet]
  | cons p rest ih =>
      obtain ⟨k1, n1⟩ := p
      by_cases hk : k1 = k
      · simp [dictSet, hk, dictGet]
      · simp [dictSet, hk, dictGet, ih]

theorem dictGet_dictSet_ne (d : List (Int × Node)) {k k1 : Int} (n : Node)
    (h : k1 ≠ k) : dictGet (dictSet d k n) k1 = dictGet d k1 := by
  have h1 : k ≠ k1 := fun he => h he.symm
  induction d with
  | nil => simp [dictSet, dictGet, h1]
  | cons p rest ih =>
      obtain ⟨k2, n2⟩ := p
      by_cases hk : k2 = k
      · subst hk
        simp [dictSet, dictGet, h1]
      · simp [dictSet, hk, dictGet, ih]

theorem keysOf_dictSet_of_mem {d : List (Int × Node)} {k : Int} (n : Node)
    (h : k ∈ keysOf d) : keysOf (dictSet d k n) = keysOf d := by
  induction d with
  | nil => simp at h
  | cons p rest ih =>
      obtain ⟨k1, n1⟩ := p
      by_cases hk : k1 = k
      · simp [dictSet, hk]
      · have h1 : k ∈ keysOf rest := by
          simp only [keysOf_cons, List.mem_cons] at h
          rcases h with h | h
          · exact absurd h.symm hk
          · exact h
        simp only [dictSet, if_neg hk, keysOf_cons, ih h1]

theorem dictSet_of_not_mem {d : List (Int × Node)} {k : Int} (n : Node)
    (h : k ∉ keysOf d) : dictSet d k n = d ++ [(k, n)] := by
  induction d with
  | nil => simp [dictSet]
  | cons p rest ih =>
      obtain ⟨k1, n1⟩ := p
      simp only [keysOf_cons, List.mem_cons] at h
      push_neg at h
      have h1 : k1 ≠ k := fun he => h.1 he.symm
      simp [dictSet, h1, ih h.2]

theorem keysOf_nodup_dictSet {d : List (Int × Node)} (k : Int) (n : Node)
    (hnd : (keysOf d).Nodup) : (keysOf (dictSet d k n)).Nodup := by
  by_cases h : k ∈ keysOf d
  · rw [keysOf_dictSet_of_mem n h]
    exact hnd
  · rw [dictSet_of_not_mem n h, keysOf_append]
    simp [List.nodup_append, hnd, h]

theorem mem_dictSet {d : List (Int × Node)} {k : Int} {n : Node}
    {p : Int × Node} (hnd : (keysOf d).Nodup) (h : p ∈ dictSet d k n) :
    p = (k, n) ∨ (p ∈ d ∧ p.1 ≠ k) := by
  induction d with
  | nil =>
      simp [dictSet] at h
      exact Or.inl h
  | cons q rest ih =>
      obtain ⟨k1, n1⟩ := q
      rw [keysOf] at hnd
      simp only [List.map_cons, List.nodup_cons] at hnd
      by_cases hk : k1 = k
      · subst hk
        simp only [dictSet, if_pos rfl] at h
        rcases List.mem_cons.1 h with h1 | h1
        · exact Or.inl h1
        · refine Or.inr ⟨List.mem_cons_of_mem _ h1, ?_⟩
          intro he
          exact hnd.1 (he ▸ mem_keysOf h1)
      · simp only [dictSet, if_neg hk] at h
        rcases List.mem_cons.1 h with h1 | h1
        · subst h1
          exact Or.inr ⟨List.mem_cons_self _ _, hk⟩
        · rcases ih hnd.2 h1 with h2 | h2
          · exact Or.inl h2
          · exact Or.inr ⟨List.mem_cons_of_mem _ h2.1, h2.2⟩

theorem dictDel_isSome_iff (d : List (Int × Node)) (k : Int) :
    (dictDel d k).isSome ↔ k ∈ keysOf d := by
  induction d with
  | nil => simp [dictDel]
  | cons p rest ih =>
      obtain ⟨k1, n1⟩ := p
      by_cases hk : k1 = k
      · simp [dictDel, hk]
      · simp [dictDel, hk, Option.isSome_map, ih]
        intro he
        exact absurd he.symm hk

theorem dictDel_sublist {d d1 : List (Int × Node)} {k : Int}
    (h : dictDel d k = some d1) : d1.Sublist d := by
  induction d generalizing d1 with
  | nil => simp [dictDel] at h
  | cons p rest ih =>
      obtain ⟨k1, n1⟩ := p
      by_cases hk : k1 = k
      · simp only [dictDel, if_pos hk] at h
        cases h
        exact List.sublist_cons_self _ _
      · simp only [dictDel, if_neg hk, Option.map_eq_some'] at h
        obtain ⟨r, hr, hd1⟩ := h
        subst hd1
        exact (ih hr).cons₂ _

theorem dictDel_length {d d1 : List (Int × Node)} {k : Int}
    (h : dictDel d k = some d1) : d1.length + 1 = d.length := by
  induction d generalizing d1 with
  | nil => simp [dictDel] at h
  | cons p rest ih =>
      obtain ⟨k1, n1⟩ := p
      by_cases hk : k1 = k
      · simp only [dictDel, if_pos hk] at h
        cases h
        simp
      · simp only [dictDel, if_neg hk, Option.map_eq_some'] at h
        obtain ⟨r, hr, hd1⟩ := h
        subst hd1
        simp [ih hr]

theorem dictGet_dictDel_ne {d d1 : List (Int × Node)} {k k1 : Int}
    (h : dictDel d k = some d1) (hne : k1 ≠ k) :
    dictGet d1 k1 = dictGet d k1 := by
  induction d generalizing d1 with
  | nil => simp [dictDel] at h
  | cons p rest ih =>
      obtain ⟨k2, n2⟩ := p
      by_cases hk : k2 = k
      · subst hk
        simp only [dictDel, if_pos rfl] at h
        cases h
        have : k2 ≠ k1 := fun he => hne he.symm
        simp [dictGet, this]
      · simp only [dictDel, if_neg hk, Option.map_eq_some'] at h
        obtain ⟨r, hr, hd1⟩ := h
        subst hd1
        simp [dictGet, ih hr]

theorem dictDel_not_mem {d d1 : List (Int × Node)} {k : Int}
    (hnd : (keysOf d).Nodup) (h : dictDel d k = some d1) :
    k ∉ keysOf d1 := by
  induction d generalizing d1 with
  | nil => simp [dictDel] at h
  | cons p rest ih =>
      obtain ⟨k1, n1⟩ := p
      simp only [keysOf_cons, List.nodup_cons] at hnd
      by_cases hk : k1 = k
      · subst hk
        simp only [dictDel, if_pos rfl] at h
        cases h
        exact hnd.1
      · simp only [dictDel, if_neg hk, Option.map_eq_some'] at h
        obtain ⟨r, hr, hd1⟩ := h
        subst hd1
        simp only [keysOf_cons, List.mem_cons]
        push_neg
        exact ⟨fun he => hk he.symm, ih hnd.2 hr⟩

theorem dictGet_dictDel_self {d d1 : List (Int × Node)} {k : Int}
    (hnd : (keysOf d).Nodup) (h : dictDel d k = some d1) :
    dictGet d1 k = none :=
  (dictGet_none_iff d1 k).mpr (dictDel_not_mem hnd h)

theorem sublist_dictGet {d d1 : List (Int × Node)}
    (hsub : d1.Sublist d) (hnd : (keysOf d).Nodup) (k : Int) :
    dictGet d1 k = none ∨ dictGet d1 k = dictGet d k := by
  cases h1 : dictGet d1 k with
  | none => exact Or.inl rfl
  | some n =>
      right
      exact (mem_dictGet hnd (hsub.subset (dictGet_mem h1))).symm

theorem dictDel_eq_erase {d d1 : List (Int × Node)} {k : Int}
    (h : dictDel d k = some d1) : d1 = dictErase d k := by
  induction d generalizing d1 with
  | nil => simp [dictDel] at h
  | cons p rest ih =>
      obtain ⟨k1, n1⟩ := p
      by_cases hk : k1 = k
      · simp only [dictDel, if_pos hk] at h
        cases h
        simp [dictErase, hk]
      · simp only [dictDel, if_neg hk, Option.map_eq_some'] at h
        obtain ⟨r, hr, hd1⟩ := h
        subst hd1
        simp [dictErase, hk, ih hr]

theorem dictDel_of_get_some {d : List (Int × Node)} {k : Int} {n : Node}
    (h : dictGet d k = some n) : dictDel d k = some (dictErase d k) := by
  have h1 : (dictDel d k).isSome :=
    (dictDel_isSome_iff d k).mpr (mem_keysOf (dictGet_mem h))
  cases h2 : dictDel d k with
  | none => rw [h2] at h1; simp at h1
  | some d1 => rw [dictDel_eq_erase h2]

theorem dictErase_sublist (d : List (Int × Node)) (k : Int) :
    (dictErase d k).Sublist d := by
  induction d with
  | nil => simp [dictErase]
  | cons p rest ih =>
      obtain ⟨k1, n1⟩ := p
      by_cases hk : k1 = k
      · simp only [dictErase, if_pos hk]
        exact List.sublist_cons_self _ _
      · simp only [dictErase, if_neg hk]
        exact ih.cons₂ _

theorem dictErase_length_le (d : List (Int × Node)) (k : Int) :
    (dictErase d k).length ≤ d.length :=
  (dictErase_sublist d k).length_le

theorem dictErase_of_not_mem {d : List (Int × Node)} {k : Int}
    (h : k ∉ keysOf d) : dictErase d k = d := by
  induction d with
  | nil => simp [dictErase]
  | cons p rest ih =>
      obtain ⟨k1, n1⟩ := p
      simp only [keysOf_cons, List.mem_cons] at h
      push_neg at h
      have h1 : k1 ≠ k := fun he => h.1 he.symm
      simp [dictErase, h1, ih h.2]

theorem dictGet_dictErase_self {d : List (Int × Node)} (k : Int)
    (hnd : (keysOf d).Nodup) : dictGet (dictErase d k) k = none := by
  by_cases h : k ∈ keysOf d
  · have h1 : (dictDel d k).isSome := (dictDel_isSome_iff d k).mpr h
    cases h2 : dictDel d k with
    | none => rw [h2] at h1; simp at h1
    | some d1 =>
        rw [← dictDel_eq_erase h2]
        exact dictGet_dictDel_self hnd h2
  · rw [dictErase_of_not_mem h]
    exact (dictGet_none_iff d k).mpr h

/-! ### Chain (`eraseKey`) lemmas -/

theorem eraseKey_sublist (l : List Node) (k : Int) :
    (eraseKey l k).Sublist l := by
  induction l with
  | nil => simp [eraseKey]
  | cons n rest ih =>
      by_cases hk : n.key = k
      · simp only [eraseKey, if_pos hk]
        exact List.sublist_cons_self _ _
      · simp only [eraseKey, if_neg hk]
        exact ih.cons₂ _

theorem nodup_keys_eraseKey {l : List Node} (k : Int)
    (hnd : (l.map Node.key).Nodup) :
    ((eraseKey l k).map Node.key).Nodup :=
  List.Nodup.sublist ((eraseKey_sublist l k).map Node.key) hnd

theorem mem_eraseKey {l : List Node} {k : Int} {m : Node}
    (hnd : (l.map Node.key).Nodup) :
    m ∈ eraseKey l k ↔ m ∈ l ∧ m.key ≠ k := by
  induction l with
  | nil => simp [eraseKey]
  | cons n rest ih =>
      simp only [List.map_cons, List.nodup_cons] at hnd
      by_cases hk : n.key = k
      · subst hk
        simp only [eraseKey, if_pos rfl]
        constructor
        · intro h
          refine ⟨List.mem_cons_of_mem _ h, ?_⟩
          intro he
          exact hnd.1 (he ▸ List.mem_map.mpr ⟨m, h, rfl⟩)
        · rintro ⟨h, hne⟩
          rcases List.mem_cons.1 h with h1 | h1
          · exact absurd (h1 ▸ rfl) hne
          · exact h1
      · simp only [eraseKey, if_neg hk, List.mem_cons, ih hnd.2]
        constructor
        · rintro (h1 | ⟨h1, h2⟩)
          · exact ⟨Or.inl h1, h1 ▸ hk⟩
          · exact ⟨Or.inr h1, h2⟩
        · rintro ⟨h1 | h1, h2⟩
          · exact Or.inl h1
          · exact Or.inr ⟨h1, h2⟩

theorem key_not_mem_eraseKey {l : List Node} (k : Int)
    (hnd : (l.map Node.key).Nodup) :
    k ∉ (eraseKey l k).map Node.key := by
  intro h
  obtain ⟨m, hm, hk⟩ := List.mem_map.1 h
  exact ((mem_eraseKey hnd).1 hm).2 hk

theorem eraseKey_cons_self (n : Node) (rest : List Node) :
    eraseKey (n :: rest) n.key = rest := by
  simp [eraseKey]

/-! ### Lock-step (`Sync`) lemmas -/

theorem sync_get_some {cache : List (Int × Node)} {chain : List Node}
    {k : Int} {n : Node} (hS : Sync cache chain)
    (h : dictGet cache k = some n) : n ∈ chain ∧ n.key = k :=
  hS.2.2.2 (k, n) (dictGet_mem h)

theorem sync_mem_keys {cache : List (Int × Node)} {chain : List Node}
    (hS : Sync cache chain) (k : Int) :
    k ∈ keysOf cache ↔ k ∈ chain.map Node.key := by
  constructor
  · intro h
    obtain ⟨p, hp, hk⟩ := List.mem_map.1 h
    obtain ⟨h1, h2⟩ := hS.2.2.2 p hp
    exact List.mem_map.mpr ⟨p.2, h1, hk ▸ h2⟩
  · intro h
    obtain ⟨m, hm, hk⟩ := List.mem_map.1 h
    have h1 := hS.2.2.1 m hm
    have h2 : (m.key, m) ∈ cache := dictGet_mem h1
    exact hk ▸ mem_keysOf h2

theorem sync_length {cache : List (Int × Node)} {chain : List Node}
    (hS : Sync cache chain) : cache.length = chain.length := by
  have hperm : (keysOf cache).Perm (chain.map Node.key) :=
    (List.perm_ext_iff_of_nodup hS.1 hS.2.1).mpr (sync_mem_keys hS)
  have h1 := hperm.length_eq
  rw [keysOf] at h1
  simpa using h1

theorem sync_reverse {cache : List (Int × Node)} {chain : List Node}
    (hS : Sync cache chain) : Sync cache chain.reverse := by
  obtain ⟨h1, h2, h3, h4⟩ := hS
  refine ⟨h1, ?_, ?_, ?_⟩
  · rw [List.map_reverse]
    exact List.nodup_reverse.mpr h2
  · intro n hn
    exact h3 n (List.mem_reverse.1 hn)
  · intro p hp
    obtain ⟨hm, hk⟩ := h4 p hp
    exact ⟨List.mem_reverse.mpr hm, hk⟩

theorem sync_del {cache cache1 : List (Int × Node)} {chain : List Node}
    {k : Int} (hS : Sync cache chain)
    (hdel : dictDel cache k = some cache1) :
    Sync cache1 (eraseKey chain k) := by
  obtain ⟨h1, h2, h3, h4⟩ := hS
  refine ⟨?_, nodup_keys_eraseKey k h2, ?_, ?_⟩
  · exact List.Nodup.sublist ((dictDel_sublist hdel).map Prod.fst) h1
  · intro m hm
    obtain ⟨hm1, hm2⟩ := (mem_eraseKey h2).1 hm
    rw [dictGet_dictDel_ne hdel hm2]
    exact h3 m hm1
  · intro p hp
    have hp1 : p ∈ cache := (dictDel_sublist hdel).subset hp
    obtain ⟨hm, hk⟩ := h4 p hp1
    have hp2 : p.1 ≠ k := by
      intro he
      exact dictDel_not_mem h1 hdel (he ▸ mem_keysOf hp)
    exact ⟨(mem_eraseKey h2).mpr ⟨hm, hk ▸ hp2⟩, hk⟩

theorem sync_tail {cache cache1 : List (Int × Node)} {n : Node}
    {rest : List Node} (hS : Sync cache (n :: rest))
    (hdel : dictDel cache n.key = some cache1) : Sync cache1 rest := by
  have h := sync_del hS hdel
  rwa [eraseKey_cons_self] at h

theorem sync_promote {cache : List (Int × Node)} {chain : List Node}
    {k : Int} {node : Node} (hS : Sync cache chain)
    (h : dictGet cache k = some node) :
    Sync cache (node :: eraseKey chain k) := by
  obtain ⟨hmem, hkey⟩ := sync_get_some hS h
  obtain ⟨h1, h2, h3, h4⟩ := hS
  refine ⟨h1, ?_, ?_, ?_⟩
  · simp only [List.map_cons, List.nodup_cons]
    exact ⟨hkey ▸ key_not_mem_eraseKey k h2, nodup_keys_eraseKey k h2⟩
  · intro m hm
    rcases List.mem_cons.1 hm with h5 | h5
    · subst h5
      rw [hkey]
      exact h
    · exact h3 m ((mem_eraseKey h2).1 h5).1
  · intro p hp
    obtain ⟨hm, hk⟩ := h4 p hp
    by_cases hpk : p.1 = k
    · have h5 : dictGet cache p.1 = some p.2 := mem_dictGet h1 hp
      rw [hpk, h] at h5
      cases h5
      exact ⟨List.mem_cons_self _ _, hk⟩
    · refine ⟨List.mem_cons_of_mem _ ((mem_eraseKey h2).mpr ⟨hm, hk ▸ hpk⟩), hk⟩

theorem sync_insert_new {cache : List (Int × Node)} {chain : List Node}
    {k : Int} {node : Node} (hS : Sync cache chain)
    (h : dictGet cache k = none) (hkey : node.key = k) :
    Sync (dictSet cache k node) (node :: chain) := by
  have hknot : k ∉ keysOf cache := (dictGet_none_iff cache k).1 h
  have hcnot : k ∉ chain.map Node.key := by
    intro hc
    exact hknot ((sync_mem_keys hS k).mpr hc)
  obtain ⟨h1, h2, h3, h4⟩ := hS
  refine ⟨keysOf_nodup_dictSet k node h1, ?_, ?_, ?_⟩
  · simp only [List.map_cons, List.nodup_cons]
    exact ⟨hkey ▸ hcnot, h2⟩
  · intro m hm
    rcases List.mem_cons.1 hm with h5 | h5
    · subst h5
      rw [hkey]
      exact dictGet_dictSet_self cache k m
    · have h6 : m.key ≠ k := by
        intro he
        exact hcnot (he ▸ List.mem_map.mpr ⟨m, h5, rfl⟩)
      rw [dictGet_dictSet_ne cache node h6]
      exact h3 m h5
  · intro p hp
    rcases mem_dictSet h1 hp with h5 | ⟨h5, h6⟩
    · subst h5
      exact ⟨List.mem_cons_self _ _, hkey⟩
    · obtain ⟨hm, hk⟩ := h4 p h5
      exact ⟨List.mem_cons_of_mem _ hm, hk⟩

theorem sync_update {cache : List (Int × Node)} {chain : List Node}
    {k : Int} {old node : Node} (hS : Sync cache chain)
    (_h : dictGet cache k = some old) (hkey : node.key = k) :
    Sync (dictSet cache k node) (node :: eraseKey chain k) := by
  obtain ⟨h1, h2, h3, h4⟩ := hS
  refine ⟨keysOf_nodup_dictSet k node h1, ?_, ?_, ?_⟩
  · simp only [List.map_cons, List.nodup_cons]
    exact ⟨hkey ▸ key_not_mem_eraseKey k h2, nodup_keys_eraseKey k h2⟩
  · intro m hm
    rcases List.mem_cons.1 hm with h5 | h5
    · subst h5
      rw [hkey]
      exact dictGet_dictSet_self cache k m
    · obtain ⟨hm1, hm2⟩ := (mem_eraseKey h2).1 h5
      rw [dictGet_dictSet_ne cache node hm2]
      exact h3 m hm1
  · intro p hp
    rcases mem_dictSet h1 hp with h5 | ⟨h5, h6⟩
    · subst h5
      exact ⟨List.mem_cons_self _ _, hkey⟩
    · obtain ⟨hm, hk⟩ := h4 p h5
      exact ⟨List.mem_cons_of_mem _ ((mem_eraseKey h2).mpr ⟨hm, hk ▸ h6⟩), hk⟩

/-! ### Expired-entry sweep lemmas -/

theorem sweepRev_sync {now : Int} {rchain : List Node}
    {cache ca : List (Int × Node)} {rc : List Node}
    (hS : Sync cache rchain) (h : sweepRev now cache rchain = some (ca, rc)) :
    Sync ca rc := by
  induction rchain generalizing cache with
  | nil =>
      simp only [sweepRev] at h
      cases h
      exact hS
  | cons n rest ih =>
      simp only [sweepRev] at h
      by_cases he : isExpired now n
      · rw [if_pos he] at h
        cases hdel : dictDel cache n.key with
        | none => rw [hdel] at h; cases h
        | some cache1 =>
            rw [hdel] at h
            exact ih (sync_tail hS hdel) h
      · rw [if_neg he] at h
        cases h
        exact hS

theorem sweepRev_isSome {now : Int} {rchain : List Node}
    {cache : List (Int × Node)} (hS : Sync cache rchain) :
    (sweepRev now cache rchain).isSome := by
  induction rchain generalizing cache with
  | nil => simp [sweepRev]
  | cons n rest ih =>
      simp only [sweepRev]
      by_cases he : isExpired now n
      · rw [if_pos he]
        have h1 : dictGet cache n.key = some n :=
          hS.2.2.1 n (List.mem_cons_self _ _)
        cases hdel : dictDel cache n.key with
        | none =>
            have h2 : (dictDel cache n.key).isSome :=
              (dictDel_isSome_iff _ _).mpr (mem_keysOf (dictGet_mem h1))
            rw [hdel] at h2
            simp at h2
        | some cache1 => exact ih (sync_tail hS hdel)
      · rw [if_neg he]
        simp

theorem sweepRev_spec {now : Int} {rchain : List Node}
    {cache ca : List (Int × Node)} {rc : List Node}
    (hS : Sync cache rchain) (h : sweepRev now cache rchain = some (ca, rc)) :
    rc = rchain.dropWhile (isExpired now) ∧
    ∀ k, dictGet ca k =
      if k ∈ (rchain.takeWhile (isExpired now)).map Node.key then none
      else dictGet cache k := by
  induction rchain generalizing cache with
  | nil =>
      simp only [sweepRev] at h
      cases h
      simp
  | cons n rest ih =>
      simp only [sweepRev] at h
      by_cases he : isExpired now n
      · rw [if_pos he] at h
        cases hdel : dictDel cache n.key with
        | none => rw [hdel] at h; cases h
        | some cache1 =>
            rw [hdel] at h
            have hS1 : Sync cache1 rest := sync_tail hS hdel
            obtain ⟨ih1, ih2⟩ := ih hS1 h
            refine ⟨?_, ?_⟩
            · rw [List.dropWhile_cons, if_pos he]
              exact ih1
            · intro k
              rw [List.takeWhile_cons, if_pos he]
              simp only [List.map_cons, List.mem_cons]
              by_cases hk1 : k ∈ (rest.takeWhile (isExpired now)).map Node.key
              · rw [ih2 k, if_pos hk1, if_pos (Or.inr hk1)]
              · rw [ih2 k, if_neg hk1]
                by_cases hk2 : k = n.key
                · rw [if_pos (Or.inl hk2)]
                  subst hk2
                  exact dictGet_dictDel_self hS.1 hdel
                · rw [if_neg ?_]
                  · exact dictGet_dictDel_ne hdel hk2
                  · rintro (h1 | h1)
                    · exact hk2 h1
                    · exact hk1 h1
      · rw [if_neg he] at h
        cases h
        refine ⟨?_, ?_⟩
        · rw [List.dropWhile_cons, if_neg he]
        · intro k
          rw [List.takeWhile_cons, if_neg he]
          simp

theorem sweepRev_cache_sublist {now : Int} {rchain : List Node}
    {cache ca : List (Int × Node)} {rc : List Node}
    (h : sweepRev now cache rchain = some (ca, rc)) : ca.Sublist cache := by
  induction rchain generalizing cache with
  | nil =>
      simp only [sweepRev] at h
      cases h
      exact List.Sublist.refl _
  | cons n rest ih =>
      simp only [sweepRev] at h
      by_cases he : isExpired now n
      · rw [if_pos he] at h
        cases hdel : dictDel cache n.key with
        | none => rw [hdel] at h; cases h
        | some cache1 =>
            rw [hdel] at h
            exact (ih h).trans (dictDel_sublist hdel)
      · rw [if_neg he] at h
        cases h
        exact List.Sublist.refl _

/-! ### Capacity-eviction loop lemmas -/

theorem evictLoopRev_le {cap : Int} {rchain : List Node}
    {cache ca : List (Int × Node)} {rc : List Node}
    (h : evictLoopRev cap cache rchain = some (ca, rc)) :
    (ca.length : Int) ≤ cap := by
  induction rchain generalizing cache with
  | nil =>
      simp only [evictLoopRev] at h
      by_cases hc : cap < (cache.length : Int)
      · rw [if_pos hc] at h; cases h
      · rw [if_neg hc] at h
        cases h
        omega
  | cons n rest ih =>
      simp only [evictLoopRev] at h
      by_cases hc : cap < (cache.length : Int)
      · rw [if_pos hc] at h
        cases hdel : dictDel cache n.key with
        | none => rw [hdel] at h; cases h
        | some cache1 =>
            rw [hdel] at h
            exact ih h
      · rw [if_neg hc] at h
        cases h
        omega

theorem evictLoopRev_sync {cap : Int} {rchain : List Node}
    {cache ca : List (Int × Node)} {rc : List Node}
    (hS : Sync cache rchain)
    (h : evictLoopRev cap cache rchain = some (ca, rc)) : Sync ca rc := by
  induction rchain generalizing cache with
  | nil =>
      simp only [evictLoopRev] at h
      by_cases hc : cap < (cache.length : Int)
      · rw [if_pos hc] at h; cases h
      · rw [if_neg hc] at h
        cases h
        exact hS
  | cons n rest ih =>
      simp only [evictLoopRev] at h
      by_cases hc : cap < (cache.length : Int)
      · rw [if_pos hc] at h
        cases hdel : dictDel cache n.key with
        | none => rw [hdel] at h; cases h
        | some cache1 =>
            rw [hdel] at h
            exact ih (sync_tail hS hdel) h
      · rw [if_neg hc] at h
        cases h
        exact hS

theorem evictLoopRev_cache_sublist {cap : Int} {rchain : List Node}
    {cache ca : List (Int × Node)} {rc : List Node}
    (h : evictLoopRev cap cache rchain = some (ca, rc)) : ca.Sublist cache := by
  induction rchain generalizing cache with
  | nil =>
      simp only [evictLoopRev] at h
      by_cases hc : cap < (cache.length : Int)
      · rw [if_pos hc] at h; cases h
      · rw [if_neg hc] at h
        cases h
        exact List.Sublist.refl _
  | cons n rest ih =>
      simp only [evictLoopRev] at h
      by_cases hc : cap < (cache.length : Int)
      · rw [if_pos hc] at h
        cases hdel : dictDel cache n.key with
        | none => rw [hdel] at h; cases h
        | some cache1 =>
            rw [hdel] at h
            exact (ih h).trans (dictDel_sublist hdel)
      · rw [if_neg hc] at h
        cases h
        exact List.Sublist.refl _

theorem evictLoopRev_isSome {cap : Int} {rchain : List Node}
    {cache : List (Int × Node)} (hS : Sync cache rchain) (hcap : 0 ≤ cap) :
    (evictLoopRev cap cache rchain).isSome := by
  induction rchain generalizing cache with
  | nil =>
      have hlen : cache.length = 0 := by
        rw [sync_length hS]
        rfl
      simp [evictLoopRev, hlen]
      omega
  | cons n rest ih =>
      simp only [evictLoopRev]
      by_cases hc : cap < (cache.length : Int)
      · rw [if_pos hc]
        have h1 : dictGet cache n.key = some n :=
          hS.2.2.1 n (List.mem_cons_self _ _)
        cases hdel : dictDel cache n.key with
        | none =>
            have h2 : (dictDel cache n.key).isSome :=
              (dictDel_isSome_iff _ _).mpr (mem_keysOf (dictGet_mem h1))
            rw [hdel] at h2
            simp at h2
        | some cache1 => exact ih (sync_tail hS hdel)
      · rw [if_neg hc]
        simp

theorem evictLoopRev_neg {cap : Int} {rchain : List Node}
    {cache : List (Int × Node)} (hS : Sync cache rchain) (hcap : cap < 0) :
    evictLoopRev cap cache rchain = none := by
  induction rchain generalizing cache with
  | nil =>
      have hc : cap < (cache.length : Int) := by omega
      simp [evictLoopRev, hc]
  | cons n rest ih =>
      have hc : cap < (cache.length : Int) := by omega
      have h1 : dictGet cache n.key = some n :=
        hS.2.2.1 n (List.mem_cons_self _ _)
      have hdel := dictDel_of_get_some h1
      simp only [evictLoopRev, if_pos hc, hdel]
      exact ih (sync_tail hS hdel)

theorem evictLoopRev_last {cap : Int} {ys : List Node} {n : Node}
    {cache ca : List (Int × Node)} {rc : List Node}
    (hS : Sync cache (ys ++ [n])) (hcap : 1 ≤ cap)
    (h : evictLoopRev cap cache (ys ++ [n]) = some (ca, rc)) : n ∈ rc := by
  induction ys generalizing cache with
  | nil =>
      simp only [List.nil_append, evictLoopRev] at h
      by_cases hc : cap < (cache.length : Int)
      · have hlen : cache.length = 1 := by
          rw [sync_length hS]
          rfl
        rw [hlen] at hc
        omega
      · rw [if_neg hc] at h
        cases h
        exact List.mem_cons_self _ _
  | cons y ys2 ih =>
      simp only [List.cons_append, evictLoopRev] at h
      by_cases hc : cap < (cache.length : Int)
      · rw [if_pos hc] at h
        cases hdel : dictDel cache y.key with
        | none => rw [hdel] at h; cases h
        | some cache1 =>
            rw [hdel] at h
            exact ih (sync_tail hS hdel) h
      · rw [if_neg hc] at h
        cases h
        simp

/-! ### Wrapper lemmas for the MRU-first interfaces -/

theorem evictExpired_sync {now : Int} {chain : List Node}
    {cache ca : List (Int × Node)} {ch : List Node}
    (hS : Sync cache chain)
    (h : evictExpired now cache chain = some (ca, ch)) : Sync ca ch := by
  simp only [evictExpired] at h
  cases hsw : sweepRev now cache chain.reverse with
  | none => rw [hsw] at h; cases h
  | some p =>
      obtain ⟨ca1, rc1⟩ := p
      rw [hsw] at h
      have h1 : Sync ca1 rc1 := sweepRev_sync (sync_reverse hS) hsw
      have h2 := sync_reverse h1
      cases h
      exact h2

theorem evictExpired_isSome {now : Int} {chain : List Node}
    {cache : List (Int × Node)} (hS : Sync cache chain) :
    (evictExpired now cache chain).isSome := by
  simp only [evictExpired]
  cases hsw : sweepRev now cache chain.reverse with
  | none =>
      have h1 := @sweepRev_isSome now _ _ (sync_reverse hS)
      rw [hsw] at h1
      simp at h1
  | some p => simp

theorem evictExpired_cache_sublist {now : Int} {chain : List Node}
    {cache ca : List (Int × Node)} {ch : List Node}
    (h : evictExpired now cache chain = some (ca, ch)) : ca.Sublist cache := by
  simp only [evictExpired] at h
  cases hsw : sweepRev now cache chain.reverse with
  | none => rw [hsw] at h; cases h
  | some p =>
      obtain ⟨ca1, rc1⟩ := p
      rw [hsw] at h
      cases h
      exact sweepRev_cache_sublist hsw

theorem capacityEvict_sync {cap : Int} {chain : List Node}
    {cache ca : List (Int × Node)} {ch : List Node}
    (hS : Sync cache chain)
    (h : capacityEvict cap cache chain = some (ca, ch)) : Sync ca ch := by
  simp only [capacityEvict] at h
  cases hlp : evictLoopRev cap cache chain.reverse with
  | none => rw [hlp] at h; cases h
  | some p =>
      obtain ⟨ca1, rc1⟩ := p
      rw [hlp] at h
      cases h
      exact sync_reverse (evictLoopRev_sync (sync_reverse hS) hlp)

theorem capacityEvict_isSome {cap : Int} {chain : List Node}
    {cache : List (Int × Node)} (hS : Sync cache chain) (hcap : 0 ≤ cap) :
    (capacityEvict cap cache chain).isSome := by
  simp only [capacityEvict]
  cases hlp : evictLoopRev cap cache chain.reverse with
  | none =>
      have h1 := evictLoopRev_isSome (sync_reverse hS) hcap
      rw [hlp] at h1
      simp at h1
  | some p => simp

theorem capacityEvict_le {cap : Int} {chain : List Node}
    {cache ca : List (Int × Node)} {ch : List Node}
    (h : capacityEvict cap cache chain = some (ca, ch)) :
    (ca.length : Int) ≤ cap := by
  simp only [capacityEvict] at h
  cases hlp : evictLoopRev cap cache chain.reverse with
  | none => rw [hlp] at h; cases h
  | some p =>
      obtain ⟨ca1, rc1⟩ := p
      rw [hlp] at h
      cases h
      exact evictLoopRev_le hlp

theorem capacityEvict_cache_sublist {cap : Int} {chain : List Node}
    {cache ca : List (Int × Node)} {ch : List Node}
    (h : capacityEvict cap cache chain = some (ca, ch)) : ca.Sublist cache := by
  simp only [capacityEvict] at h
  cases hlp : evictLoopRev cap cache chain.reverse with
  | none => rw [hlp] at h; cases h
  | some p =>
      obtain ⟨ca1, rc1⟩ := p
      rw [hlp] at h
      cases h
      exact evictLoopRev_cache_sublist hlp

theorem capacityEvict_neg {cap : Int} {chain : List Node}
    {cache : List (Int × Node)} (hS : Sync cache chain) (hcap : cap < 0) :
    capacityEvict cap cache chain = none := by
  simp only [capacityEvict]
  rw [evictLoopRev_neg (sync_reverse hS) hcap]

/-! ### `putFront` lemmas -/

theorem putFront_capacity (c : LRUCache) (key value ttl now : Int) :
    (putFront c key value ttl now).capacity = c.capacity := by
  simp only [putFront]
  by_cases h : (dictGet c.cache key).isSome
  · rw [if_pos h]
  · rw [if_neg h]

theorem putFront_sync {c : LRUCache} (key value ttl now : Int) (hwf : WF c) :
    Sync (putFront c key value ttl now).cache
      (putFront c key value ttl now).chain := by
  simp only [putFront]
  cases hg : dictGet c.cache key with
  | none =>
      rw [if_neg (by simp [hg])]
      exact sync_insert_new hwf hg rfl
  | some old =>
      rw [if_pos (by simp [hg])]
      exact sync_update hwf hg rfl

theorem putFront_chain (c : LRUCache) (key value ttl now : Int) :
    ∃ tail0,
      (putFront c key value ttl now).chain =
        ({ key := key, value := value, expire_at := now + ttl } : Node) ::
          tail0 := by
  simp only [putFront]
  by_cases h : (dictGet c.cache key).isSome
  · rw [if_pos h]
    exact ⟨_, rfl⟩
  · rw [if_neg h]
    exact ⟨_, rfl⟩

theorem putFront_cache_get (c : LRUCache) (key value ttl now : Int) :
    dictGet (putFront c key value ttl now).cache key =
      some { key := key, value := value, expire_at := now + ttl } := by
  simp only [putFront]
  by_cases h : (dictGet c.cache key).isSome
  · rw [if_pos h]
    exact dictGet_dictSet_self _ _ _
  · rw [if_neg h]
    exact dictGet_dictSet_self _ _ _

/-! ### Well-formedness preservation and operation-level facts -/

theorem WF_init (cap : Int) : WF (LRUCache.init cap) := by
  refine ⟨?_, ?_, ?_, ?_⟩ <;> simp [LRUCache.init, keysOf]

theorem get_WF {c : LRUCache} (key now : Int) (hwf : WF c) :
    WF (LRUCache.get c key now).1 := by
  cases hg : dictGet c.cache key with
  | none =>
      simp only [LRUCache.get, hg]
      exact hwf
  | some node =>
      by_cases he : isExpired now node = true
      · simp only [LRUCache.get, hg, he, if_true]
        exact sync_del hwf (dictDel_of_get_some hg)
      · simp only [LRUCache.get, hg, if_neg he]
        exact sync_promote hwf hg

theorem put_WF {c c1 : LRUCache} {key value ttl now : Int} (hwf : WF c)
    (h : LRUCache.put c key value ttl now = some c1) : WF c1 := by
  have hS1 := putFront_sync key value ttl now hwf
  cases hE : evictExpired now (putFront c key value ttl now).cache
      (putFront c key value ttl now).chain with
  | none =>
      simp only [LRUCache.put, hE] at h
      exact Option.noConfusion h
  | some p =>
      obtain ⟨cache2, chain2⟩ := p
      have hS2 : Sync cache2 chain2 := evictExpired_sync hS1 hE
      cases hC : capacityEvict c.capacity cache2 chain2 with
      | none =>
          simp only [LRUCache.put, hE, hC] at h
          exact Option.noConfusion h
      | some q =>
          obtain ⟨cache3, chain3⟩ := q
          have hS3 := capacityEvict_sync hS2 hC
          simp only [LRUCache.put, hE, hC] at h
          cases h
          exact hS3

theorem resize_WF {c c1 : LRUCache} {new_capacity now : Int} (hwf : WF c)
    (h : LRUCache.resize c new_capacity now = some c1) : WF c1 := by
  cases hE : evictExpired now c.cache c.chain with
  | none =>
      simp only [LRUCache.resize, hE] at h
      exact Option.noConfusion h
  | some p =>
      obtain ⟨cache2, chain2⟩ := p
      have hS2 : Sync cache2 chain2 := evictExpired_sync hwf hE
      cases hC : capacityEvict new_capacity cache2 chain2 with
      | none =>
          simp only [LRUCache.resize, hE, hC] at h
          exact Option.noConfusion h
      | some q =>
          obtain ⟨cache3, chain3⟩ := q
          have hS3 := capacityEvict_sync hS2 hC
          simp only [LRUCache.resize, hE, hC] at h
          cases h
          exact hS3

theorem applyOp_WF {c c1 : LRUCache} {op : Op} (hwf : WF c)
    (h : applyOp c op = some c1) : WF c1 := by
  cases op with
  | get k now =>
      simp only [applyOp] at h
      cases h
      exact get_WF k now hwf
  | put k v ttl now =>
      simp only [applyOp] at h
      exact put_WF hwf h
  | resize cap now =>
      simp only [applyOp] at h
      exact resize_WF hwf h

theorem runOps_WF {c c1 : LRUCache} {ops : List Op} (hwf : WF c)
    (h : runOps c ops = some c1) : WF c1 := by
  induction ops generalizing c with
  | nil =>
      simp only [runOps] at h
      cases h
      exact hwf
  | cons op rest ih =>
      simp only [runOps] at h
      cases ha : applyOp c op with
      | none => rw [ha] at h; cases h
      | some c2 =>
          rw [ha] at h
          exact ih (applyOp_WF hwf ha) h

/-! ### Size bounds and totality facts -/

theorem get_cache_length_le (c : LRUCache) (key now : Int) :
    (LRUCache.get c key now).1.cache.length ≤ c.cache.length := by
  cases hg : dictGet c.cache key with
  | none =>
      simp only [LRUCache.get, hg]
      exact le_refl _
  | some node =>
      by_cases he : isExpired now node = true
      · simp only [LRUCache.get, hg, he, if_true]
        exact dictErase_length_le _ _
      · simp only [LRUCache.get, hg, if_neg he]
        exact le_refl _

theorem get_capacity_eq (c : LRUCache) (key now : Int) :
    (LRUCache.get c key now).1.capacity = c.capacity := by
  cases hg : dictGet c.cache key with
  | none => simp only [LRUCache.get, hg]
  | some node =>
      by_cases he : isExpired now node = true
      · simp only [LRUCache.get, hg, he, if_true]
      · simp only [LRUCache.get, hg, if_neg he]

theorem put_bound {c c1 : LRUCache} {key value ttl now : Int}
    (h : LRUCache.put c key value ttl now = some c1) :
    (c1.cache.length : Int) ≤ c1.capacity := by
  cases hE : evictExpired now (putFront c key value ttl now).cache
      (putFront c key value ttl now).chain with
  | none =>
      simp only [LRUCache.put, hE] at h
      exact Option.noConfusion h
  | some p =>
      obtain ⟨cache2, chain2⟩ := p
      cases hC : capacityEvict c.capacity cache2 chain2 with
      | none =>
          simp only [LRUCache.put, hE, hC] at h
          exact Option.noConfusion h
      | some q =>
          obtain ⟨cache3, chain3⟩ := q
          have hle := capacityEvict_le hC
          simp only [LRUCache.put, hE, hC] at h
          cases h
          exact hle

theorem resize_bound {c c1 : LRUCache} {new_capacity now : Int}
    (h : LRUCache.resize c new_capacity now = some c1) :
    (c1.cache.length : Int) ≤ c1.capacity := by
  cases hE : evictExpired now c.cache c.chain with
  | none =>
      simp only [LRUCache.resize, hE] at h
      exact Option.noConfusion h
  | some p =>
      obtain ⟨cache2, chain2⟩ := p
      cases hC : capacityEvict new_capacity cache2 chain2 with
      | none =>
          simp only [LRUCache.resize, hE, hC] at h
          exact Option.noConfusion h
      | some q =>
          obtain ⟨cache3, chain3⟩ := q
          have hle := capacityEvict_le hC
          simp only [LRUCache.resize, hE, hC] at h
          cases h
          exact hle

theorem put_isSome {c : LRUCache} (key value ttl now : Int) (hwf : WF c)
    (hcap : 0 ≤ c.capacity) :
    (LRUCache.put c key value ttl now).isSome := by
  have hS1 := putFront_sync key value ttl now hwf
  cases hE : evictExpired now (putFront c key value ttl now).cache
      (putFront c key value ttl now).chain with
  | none =>
      have h1 := @evictExpired_isSome now _ _ hS1
      rw [hE] at h1
      simp at h1
  | some p =>
      obtain ⟨cache2, chain2⟩ := p
      have hS2 : Sync cache2 chain2 := evictExpired_sync hS1 hE
      cases hC : capacityEvict c.capacity cache2 chain2 with
      | none =>
          have h1 := capacityEvict_isSome hS2 hcap
          rw [hC] at h1
          simp at h1
      | some q =>
          obtain ⟨cache3, chain3⟩ := q
          simp only [LRUCache.put, hE, hC]
          simp

theorem resize_isSome {c : LRUCache} (new_capacity now : Int) (hwf : WF c)
    (hcap : 0 ≤ new_capacity) :
    (LRUCache.resize c new_capacity now).isSome := by
  cases hE : evictExpired now c.cache c.chain with
  | none =>
      have h1 := @evictExpired_isSome now _ _ hwf
      rw [hE] at h1
      simp at h1
  | some p =>
      obtain ⟨cache2, chain2⟩ := p
      have hS2 : Sync cache2 chain2 := evictExpired_sync hwf hE
      cases hC : capacityEvict new_capacity cache2 chain2 with
      | none =>
          have h1 := capacityEvict_isSome hS2 hcap
          rw [hC] at h1
          simp at h1
      | some q =>
          obtain ⟨cache3, chain3⟩ := q
          simp only [LRUCache.resize, hE, hC]
          simp

theorem resize_zero_empties {c : LRUCache} (now : Int) (hwf : WF c) :
    LRUCache.resize c 0 now =
      some { capacity := 0, cache := [], chain := [] } := by
  cases hE : evictExpired now c.cache c.chain with
  | none =>
      have h1 := @evictExpired_isSome now _ _ hwf
      rw [hE] at h1
      simp at h1
  | some p =>
      obtain ⟨cache2, chain2⟩ := p
      have hS2 : Sync cache2 chain2 := evictExpired_sync hwf hE
      cases hC : capacityEvict 0 cache2 chain2 with
      | none =>
          have h1 := capacityEvict_isSome hS2 (le_refl 0)
          rw [hC] at h1
          simp at h1
      | some q =>
          obtain ⟨cache3, chain3⟩ := q
          have hle := capacityEvict_le hC
          have hc3 : cache3 = [] := by
            have : cache3.length = 0 := by omega
            exact List.length_eq_zero.mp this
          have hS3 : Sync cache3 chain3 := capacityEvict_sync hS2 hC
          have hch3 : chain3 = [] := by
            have h2 : cache3.length = chain3.length := sync_length hS3
            rw [hc3] at h2
            exact List.length_eq_zero.mp h2.symm
          subst hc3
          subst hch3
          simp only [LRUCache.resize, hE, hC]

theorem resize_neg_crashes {c : LRUCache} {new_capacity : Int} (now : Int)
    (hwf : WF c) (hcap : new_capacity < 0) :
    LRUCache.resize c new_capacity now = none := by
  cases hE : evictExpired now c.cache c.chain with
  | none => simp only [LRUCache.resize, hE]
  | some p =>
      obtain ⟨cache2, chain2⟩ := p
      have hS2 : Sync cache2 chain2 := evictExpired_sync hwf hE
      have hC : capacityEvict new_capacity cache2 chain2 = none :=
        capacityEvict_neg hS2 hcap
      simp only [LRUCache.resize, hE, hC]

theorem put_dict_stable {c c1 : LRUCache} {key value ttl now : Int}
    (hwf : WF c) (h : LRUCache.put c key value ttl now = some c1) :
    dictGet c1.cache key = none ∨
      dictGet c1.cache key =
        some { key := key, value := value, expire_at := now + ttl } := by
  have hS1 := putFront_sync key value ttl now hwf
  cases hE : evictExpired now (putFront c key value ttl now).cache
      (putFront c key value ttl now).chain with
  | none =>
      simp only [LRUCache.put, hE] at h
      exact Option.noConfusion h
  | some p =>
      obtain ⟨cache2, chain2⟩ := p
      cases hC : capacityEvict c.capacity cache2 chain2 with
      | none =>
          simp only [LRUCache.put, hE, hC] at h
          exact Option.noConfusion h
      | some q =>
          obtain ⟨cache3, chain3⟩ := q
          have hsub : cache3.Sublist (putFront c key value ttl now).cache :=
            (capacityEvict_cache_sublist hC).trans
              (evictExpired_cache_sublist hE)
          have h1 := sublist_dictGet hsub hS1.1 key
          rw [putFront_cache_get c key value ttl now] at h1
          simp only [LRUCache.put, hE, hC] at h
          cases h
          exact h1

theorem dropWhile_append_last {p : Node → Bool} {n : Node}
    (hp : p n = false) (ys : List Node) :
    List.dropWhile p (ys ++ [n]) = List.dropWhile p ys ++ [n] := by
  induction ys with
  | nil => simp [List.dropWhile_cons, hp]
  | cons y ys2 ih =>
      by_cases hy : p y = true
      · simp [List.dropWhile_cons, hy, ih]
      · simp [List.dropWhile_cons, hy]

theorem capacityEvict_reverse (cap : Int) (cache : List (Int × Node))
    (rc : List Node) :
    capacityEvict cap cache rc.reverse =
      match evictLoopRev cap cache rc with
      | none => none
      | some (ca, rc1) => some (ca, rc1.reverse) := by
  simp only [capacityEvict, List.reverse_reverse]

theorem put_keeps_live {c c1 : LRUCache} {key value ttl now : Int}
    (hwf : WF c) (hcap : 1 ≤ c.capacity) (httl : 0 ≤ ttl)
    (h : LRUCache.put c key value ttl now = some c1) :
    dictGet c1.cache key =
      some { key := key, value := value, expire_at := now + ttl } := by
  have hS1 := putFront_sync key value ttl now hwf
  obtain ⟨tail0, hch⟩ := putFront_chain c key value ttl now
  have hexp : isExpired now (⟨key, value, now + ttl⟩ : Node) = false := by
    simp only [isExpired, decide_eq_false_iff_not, not_lt]
    omega
  cases hsw : sweepRev now (putFront c key value ttl now).cache
      ((putFront c key value ttl now).chain).reverse with
  | none =>
      have h1 := @sweepRev_isSome now _ _ (sync_reverse hS1)
      rw [hsw] at h1
      simp at h1
  | some p =>
      obtain ⟨cache2, rc2⟩ := p
      have hS2 : Sync cache2 rc2 := sweepRev_sync (sync_reverse hS1) hsw
      have hspec := (sweepRev_spec (sync_reverse hS1) hsw).1
      have hrc2 : rc2 =
          (tail0.reverse).dropWhile (isExpired now) ++
            [(⟨key, value, now + ttl⟩ : Node)] := by
        rw [hspec, hch, List.reverse_cons, dropWhile_append_last hexp]
      have hE : evictExpired now (putFront c key value ttl now).cache
          (putFront c key value ttl now).chain = some (cache2, rc2.reverse) := by
        simp only [evictExpired, hsw]
      cases hlp : evictLoopRev c.capacity cache2 rc2 with
      | none =>
          have h1 := @evictLoopRev_isSome c.capacity _ _ hS2 (by omega)
          rw [hlp] at h1
          simp at h1
      | some q =>
          obtain ⟨cache3, rc3⟩ := q
          have hmem : (⟨key, value, now + ttl⟩ : Node) ∈ rc3 :=
            evictLoopRev_last (by rwa [hrc2] at hS2) hcap
              (by rwa [hrc2] at hlp)
          have hS3 : Sync cache3 rc3 := evictLoopRev_sync hS2 hlp
          have hget := hS3.2.2.1 _ hmem
          have hCE : capacityEvict c.capacity cache2 rc2.reverse =
              some (cache3, rc3.reverse) := by
            rw [capacityEvict_reverse, hlp]
          simp only [LRUCache.put, hE, hCE] at h
          cases h
          exact hget

/-! ### Claim theorems -/

/-- An operation with a positive capacity argument when it is a resize
(`get` and `put` have no capacity argument). -/
def opValid : Op → Bool
  | Op.resize cap _ => decide (0 < cap)
  | _ => true

theorem runOps_bound {c c1 : LRUCache} {ops : List Op}
    (hinv : (c.cache.length : Int) ≤ c.capacity)
    (h : runOps c ops = some c1) :
    (c1.cache.length : Int) ≤ c1.capacity := by
  induction ops generalizing c with
  | nil =>
      simp only [runOps] at h
      cases h
      exact hinv
  | cons op rest ih =>
      simp only [runOps] at h
      cases ha : applyOp c op with
      | none =>
          rw [ha] at h
          exact Option.noConfusion h
      | some c2 =>
          rw [ha] at h
          refine ih ?_ h
          cases op with
          | get k now =>
              simp only [applyOp] at ha
              cases ha
              have h1 := get_cache_length_le c k now
              have h2 := get_capacity_eq c k now
              rw [h2]
              omega
          | put k v ttl now =>
              simp only [applyOp] at ha
              exact put_bound ha
          | resize cap now =>
              simp only [applyOp] at ha
              exact resize_bound ha

/-- C1: for every sequence of public operations started from a cache
constructed with positive capacity, in which every resize supplies a
positive new capacity, after each call that returns the number of entries
in the Index is at most the current capacity.  (Stated on the final state
of an arbitrary such sequence; every prefix is itself such a sequence.) -/
theorem c1_capacity_invariant (cap0 : Int) (ops : List Op) (c1 : LRUCache)
    (hcap : 0 < cap0) (_hops : ∀ op ∈ ops, opValid op = true)
    (hrun : runOps (LRUCache.init cap0) ops = some c1) :
    (c1.cache.length : Int) ≤ c1.capacity := by
  refine runOps_bound ?_ hrun
  simp only [LRUCache.init, List.length_nil]
  omega

/-- Witness for C1 at a concrete run. -/
theorem c1_capacity_invariant_witness :
    (0 : Int) < 2 ∧
    (∀ op ∈ ([Op.put 1 1 5 0, Op.resize 1 0] : List Op), opValid op = true) ∧
    runOps (LRUCache.init 2) [Op.put 1 1 5 0, Op.resize 1 0] =
      some (⟨1, [(1, ⟨1, 1, 5⟩)], [⟨1, 1, 5⟩]⟩ : LRUCache) ∧
    (((⟨1, [(1, ⟨1, 1, 5⟩)], [⟨1, 1, 5⟩]⟩ : LRUCache).cache.length : Int) ≤
      (⟨1, [(1, ⟨1, 1, 5⟩)], [⟨1, 1, 5⟩]⟩ : LRUCache).capacity) :=
  ⟨by decide, by decide, by decide,
    c1_capacity_invariant 2 [Op.put 1 1 5 0, Op.resize 1 0] _ (by decide)
      (by decide) (by decide)⟩

/-- C2 counterexample: `resize(0)` on a one-entry cache is not rejected:
it returns normally and changes the state (capacity set to 0, the entry
evicted), refuting "rejected before any mutation, the call fails and
leaves the prior cache state unchanged". -/
theorem c2_counterexample :
    LRUCache.resize (⟨1, [(1, ⟨1, 1, 100⟩)], [⟨1, 1, 100⟩]⟩ : LRUCache) 0 0 =
      some { capacity := 0, cache := [], chain := [] } ∧
    some ({ capacity := 0, cache := [], chain := [] } : LRUCache) ≠
      some (⟨1, [(1, ⟨1, 1, 100⟩)], [⟨1, 1, 100⟩]⟩ : LRUCache) := by
  decide

/-- C2 (amended): neither construction nor `resize` validates the
capacity.  `resize(0)` succeeds and silently clamps occupancy by evicting
every entry; `resize` with a negative capacity mutates state and then
faults inside the eviction loop (unlinking a sentinel) instead of being
rejected up front; construction stores any capacity unchecked. -/
theorem c2_no_capacity_validation :
    (∀ (c : LRUCache) (now : Int), WF c →
        LRUCache.resize c 0 now =
          some { capacity := 0, cache := [], chain := [] }) ∧
    (∀ (c : LRUCache) (cap now : Int), WF c → cap < 0 →
        LRUCache.resize c cap now = none) ∧
    (∀ cap : Int, (LRUCache.init cap).capacity = cap) :=
  ⟨fun _ now hwf => resize_zero_empties now hwf,
   fun _ _ now hwf hc => resize_neg_crashes now hwf hc,
   fun _ => rfl⟩

/-- Witness for C2 (amended) at concrete states. -/
theorem c2_no_capacity_validation_witness :
    WF (⟨1, [(1, ⟨1, 1, 100⟩)], [⟨1, 1, 100⟩]⟩ : LRUCache) ∧
    LRUCache.resize (⟨1, [(1, ⟨1, 1, 100⟩)], [⟨1, 1, 100⟩]⟩ : LRUCache) 0 5 =
      some { capacity := 0, cache := [], chain := [] } ∧
    LRUCache.resize (⟨1, [(1, ⟨1, 1, 100⟩)], [⟨1, 1, 100⟩]⟩ : LRUCache)
      (-2) 5 = none ∧
    (LRUCache.init (-3)).capacity = -3 :=
  ⟨by decide,
   c2_no_capacity_validation.1 _ 5 (by decide),
   c2_no_capacity_validation.2.1 _ (-2) 5 (by decide) (by decide),
   c2_no_capacity_validation.2.2 (-3)⟩

/-- C3 counterexample: `put` with a strictly negative ttl is not a
fault: on a cache holding one live entry it returns normally and silently
inserts the new key into the Index (with an already-past deadline),
refuting "surfaced immediately to the caller, does not silently insert". -/
theorem c3_counterexample :
    LRUCache.put (⟨3, [(1, ⟨1, 1, 100⟩)], [⟨1, 1, 100⟩]⟩ : LRUCache)
        2 5 (-1) 0 =
      some (⟨3, [(1, ⟨1, 1, 100⟩), (2, ⟨2, 5, -1⟩)],
        [⟨2, 5, -1⟩, ⟨1, 1, 100⟩]⟩ : LRUCache) ∧
    dictGet [(1, (⟨1, 1, 100⟩ : Node)), (2, ⟨2, 5, -1⟩)] 2 =
      some ⟨2, 5, -1⟩ := by
  decide

/-- C3 (amended): `put` performs no ttl validation at all: for every ttl
(negative included, zero included) the call completes without fault on
any well-formed cache with non-negative capacity. -/
theorem c3_no_ttl_validation (c : LRUCache) (key value ttl now : Int)
    (hwf : WF c) (hcap : 0 ≤ c.capacity) :
    (LRUCache.put c key value ttl now).isSome :=
  put_isSome key value ttl now hwf hcap

/-- Witness for C3 (amended) with a negative ttl. -/
theorem c3_no_ttl_validation_witness :
    WF (LRUCache.init 3) ∧ (0 : Int) ≤ (LRUCache.init 3).capacity ∧
    (LRUCache.put (LRUCache.init 3) 1 2 (-7) 0).isSome :=
  ⟨by decide, by decide,
   c3_no_ttl_validation (LRUCache.init 3) 1 2 (-7) 0 (by decide) (by decide)⟩

/-- C4: on a well-formed cache with capacity at least 1, `put(k, v, ttl)`
immediately followed by `get(k)` at a current time within the ttl
(at or after the put, strictly before the expiry deadline) returns `v`. -/
theorem c4_roundtrip {c c1 : LRUCache} {k v ttl now now1 : Int}
    (hwf : WF c) (hcap : 1 ≤ c.capacity)
    (hput : LRUCache.put c k v ttl now = some c1)
    (h1 : now ≤ now1) (h2 : now1 < now + ttl) :
    (LRUCache.get c1 k now1).2 = v := by
  have httl : 0 ≤ ttl := by omega
  have hget := put_keeps_live hwf hcap httl hput
  have hexp : isExpired now1 (⟨k, v, now + ttl⟩ : Node) = false := by
    simp only [isExpired, decide_eq_false_iff_not, not_lt]
    omega
  simp [LRUCache.get, hget, hexp]

/-- Witness for C4 at a concrete put/get pair. -/
theorem c4_roundtrip_witness :
    WF (LRUCache.init 2) ∧ (1 : Int) ≤ (LRUCache.init 2).capacity ∧
    LRUCache.put (LRUCache.init 2) 1 10 5 0 =
      some (⟨2, [(1, ⟨1, 10, 5⟩)], [⟨1, 10, 5⟩]⟩ : LRUCache) ∧
    (0 : Int) ≤ 3 ∧ (3 : Int) < 0 + 5 ∧
    ((⟨2, [(1, ⟨1, 10, 5⟩)], [⟨1, 10, 5⟩]⟩ : LRUCache).get 1 3).2 = 10 :=
  ⟨by decide, by decide, by decide, by decide, by decide,
   @c4_roundtrip (LRUCache.init 2)
     (⟨2, [(1, ⟨1, 10, 5⟩)], [⟨1, 10, 5⟩]⟩ : LRUCache) 1 10 5 0 3
     (by decide) (by decide) (by decide) (by decide) (by decide)⟩

/-- C5: in a fresh capacity-3 cache with ttl 5 throughout and the clock
at 0, the sequence put(1,1), put(2,2), put(3,3), get(1), put(4,4) evicts
exactly key 2: the Index then holds exactly keys 1, 3, 4, get(2) misses,
and get(1), get(3), get(4) return 1, 3, 4. -/
theorem c5_lru_scenario :
    runOps (LRUCache.init 3)
      [Op.put 1 1 5 0, Op.put 2 2 5 0, Op.put 3 3 5 0, Op.get 1 0,
        Op.put 4 4 5 0] =
      some (⟨3, [(1, ⟨1, 1, 5⟩), (3, ⟨3, 3, 5⟩), (4, ⟨4, 4, 5⟩)],
        [⟨4, 4, 5⟩, ⟨1, 1, 5⟩, ⟨3, 3, 5⟩]⟩ : LRUCache) ∧
    keysOf (⟨3, [(1, ⟨1, 1, 5⟩), (3, ⟨3, 3, 5⟩), (4, ⟨4, 4, 5⟩)],
      [⟨4, 4, 5⟩, ⟨1, 1, 5⟩, ⟨3, 3, 5⟩]⟩ : LRUCache).cache = [1, 3, 4] ∧
    ((⟨3, [(1, ⟨1, 1, 5⟩), (3, ⟨3, 3, 5⟩), (4, ⟨4, 4, 5⟩)],
      [⟨4, 4, 5⟩, ⟨1, 1, 5⟩, ⟨3, 3, 5⟩]⟩ : LRUCache).get 2 0).2 = -1 ∧
    (((⟨3, [(1, ⟨1, 1, 5⟩), (3, ⟨3, 3, 5⟩), (4, ⟨4, 4, 5⟩)],
      [⟨4, 4, 5⟩, ⟨1, 1, 5⟩, ⟨3, 3, 5⟩]⟩ : LRUCache).get 2 0).1.get 1 0).2 =
      1 ∧
    ((((⟨3, [(1, ⟨1, 1, 5⟩), (3, ⟨3, 3, 5⟩), (4, ⟨4, 4, 5⟩)],
      [⟨4, 4, 5⟩, ⟨1, 1, 5⟩, ⟨3, 3, 5⟩]⟩ : LRUCache).get 2 0).1.get
        1 0).1.get 3 0).2 = 3 ∧
    (((((⟨3, [(1, ⟨1, 1, 5⟩), (3, ⟨3, 3, 5⟩), (4, ⟨4, 4, 5⟩)],
      [⟨4, 4, 5⟩, ⟨1, 1, 5⟩, ⟨3, 3, 5⟩]⟩ : LRUCache).get 2 0).1.get
        1 0).1.get 3 0).1.get 4 0).2 = 4 := by
  decide

/-- C6: on a well-formed cache, `get` on a key whose entry has an expiry
deadline strictly in the past returns the miss signal and removes the
entry from both the Index and the chain, regardless of its position in
the recency order. -/
theorem c6_expired_get_removes (c : LRUCache) (k now : Int) (n : Node)
    (hwf : WF c) (hget : dictGet c.cache k = some n)
    (hexp : n.expire_at < now) :
    (LRUCache.get c k now).2 = -1 ∧
    dictGet (LRUCache.get c k now).1.cache k = none ∧
    k ∉ ((LRUCache.get c k now).1.chain.map Node.key) := by
  have he : isExpired now n = true := by
    simp [isExpired, hexp]
  refine ⟨?_, ?_, ?_⟩
  · simp [LRUCache.get, hget, he]
  · simp only [LRUCache.get, hget, he, if_true]
    exact dictGet_dictErase_self k hwf.1
  · simp only [LRUCache.get, hget, he, if_true]
    exact key_not_mem_eraseKey k hwf.2.1

/-- Witness for C6 on a one-entry cache whose only (hence MRU) entry is
expired. -/
theorem c6_expired_get_removes_witness :
    WF (⟨2, [(5, ⟨5, 9, 3⟩)], [⟨5, 9, 3⟩]⟩ : LRUCache) ∧
    dictGet (⟨2, [(5, ⟨5, 9, 3⟩)], [⟨5, 9, 3⟩]⟩ : LRUCache).cache 5 =
      some ⟨5, 9, 3⟩ ∧
    (3 : Int) < 10 ∧
    (((⟨2, [(5, ⟨5, 9, 3⟩)], [⟨5, 9, 3⟩]⟩ : LRUCache).get 5 10).2 = -1 ∧
      dictGet ((⟨2, [(5, ⟨5, 9, 3⟩)], [⟨5, 9, 3⟩]⟩ : LRUCache).get
        5 10).1.cache 5 = none ∧
      5 ∉ (((⟨2, [(5, ⟨5, 9, 3⟩)], [⟨5, 9, 3⟩]⟩ : LRUCache).get
        5 10).1.chain.map Node.key)) :=
  ⟨by decide, by decide, by decide,
   c6_expired_get_removes (⟨2, [(5, ⟨5, 9, 3⟩)], [⟨5, 9, 3⟩]⟩ : LRUCache)
     5 10 (⟨5, 9, 3⟩ : Node) (by decide) (by decide) (by decide)⟩

/-- C7 counterexample: after `put(7, 42, ttl = 0)` at time 10, a `get(7)`
whose current time is exactly the put time (at, not after) returns the
stored value 42 rather than the miss signal, because expiry is the strict
comparison `expire_at < now`; this refutes "any subsequent get at a
current time at or after the put time returns the miss signal". -/
theorem c7_counterexample :
    LRUCache.put (LRUCache.init 1) 7 42 0 10 =
      some (⟨1, [(7, ⟨7, 42, 10⟩)], [⟨7, 42, 10⟩]⟩ : LRUCache) ∧
    ((⟨1, [(7, ⟨7, 42, 10⟩)], [⟨7, 42, 10⟩]⟩ : LRUCache).get 7 10).2 = 42 ∧
    (42 : Int) ≠ -1 := by
  decide

/-- C7 (amended): an entry stored with ttl 0 expires immediately in the
strict sense: any `get` of that key at a current time strictly after the
put time returns the miss signal (at the exact put instant the entry is
still retrievable, see the counterexample). -/
theorem c7_zero_ttl_miss_after {c c1 : LRUCache} {k v now now1 : Int}
    (hwf : WF c) (hput : LRUCache.put c k v 0 now = some c1)
    (hlater : now < now1) :
    (LRUCache.get c1 k now1).2 = -1 := by
  rcases put_dict_stable hwf hput with h1 | h1
  · simp [LRUCache.get, h1]
  · have he : isExpired now1 (⟨k, v, now⟩ : Node) = true := by
      simp only [isExpired, decide_eq_true_eq]
      omega
    simp [LRUCache.get, h1, he]

/-- Witness for C7 (amended) at a concrete put and a strictly later
get. -/
theorem c7_zero_ttl_miss_after_witness :
    WF (LRUCache.init 1) ∧
    LRUCache.put (LRUCache.init 1) 7 42 0 10 =
      some (⟨1, [(7, ⟨7, 42, 10⟩)], [⟨7, 42, 10⟩]⟩ : LRUCache) ∧
    (10 : Int) < 12 ∧
    ((⟨1, [(7, ⟨7, 42, 10⟩)], [⟨7, 42, 10⟩]⟩ : LRUCache).get 7 12).2 = -1 :=
  ⟨by decide, by decide, by decide,
   @c7_zero_ttl_miss_after (LRUCache.init 1)
     (⟨1, [(7, ⟨7, 42, 10⟩)], [⟨7, 42, 10⟩]⟩ : LRUCache) 7 42 10 12
     (by decide) (by decide) (by decide)⟩

/-- C8: on a well-formed cache the expired-entry sweep removes exactly
the maximal contiguous run of expired entries at the LRU end of the
chain: the resulting chain is the original minus that run (computed by
dropWhile on the LRU-first reversal, so expired entries on the MRU side
of the first non-expired entry are kept), and the Index loses exactly the
keys of that run. -/
theorem c8_sweep_maximal_run (now : Int) (cache ca : List (Int × Node))
    (chain ch : List Node) (hS : Sync cache chain)
    (h : evictExpired now cache chain = some (ca, ch)) :
    ch = ((chain.reverse.dropWhile (isExpired now)).reverse) ∧
    ∀ k, dictGet ca k =
      if k ∈ (chain.reverse.takeWhile (isExpired now)).map Node.key then
        none
      else dictGet cache k := by
  simp only [evictExpired] at h
  cases hsw : sweepRev now cache chain.reverse with
  | none =>
      rw [hsw] at h
      exact Option.noConfusion h
  | some p =>
      obtain ⟨ca1, rc1⟩ := p
      have hspec := sweepRev_spec (sync_reverse hS) hsw
      rw [hsw] at h
      cases h
      exact ⟨by rw [hspec.1], hspec.2⟩

/-- Witness for C8: the LRU-end run of two expired entries is removed,
while an equally expired entry on the MRU side of the live entry stays in
both the chain and the Index. -/
theorem c8_sweep_maximal_run_witness :
    Sync [(1, ⟨1, 1, 0⟩), (2, ⟨2, 2, 99⟩), (3, ⟨3, 3, 5⟩), (4, ⟨4, 4, 2⟩)]
      [⟨1, 1, 0⟩, ⟨2, 2, 99⟩, ⟨3, 3, 5⟩, ⟨4, 4, 2⟩] ∧
    evictExpired 10
      [(1, ⟨1, 1, 0⟩), (2, ⟨2, 2, 99⟩), (3, ⟨3, 3, 5⟩), (4, ⟨4, 4, 2⟩)]
      [⟨1, 1, 0⟩, ⟨2, 2, 99⟩, ⟨3, 3, 5⟩, ⟨4, 4, 2⟩] =
      some ([(1, ⟨1, 1, 0⟩), (2, ⟨2, 2, 99⟩)], [⟨1, 1, 0⟩, ⟨2, 2, 99⟩]) ∧
    ([⟨1, 1, 0⟩, ⟨2, 2, 99⟩] : List Node) =
      ((([⟨1, 1, 0⟩, ⟨2, 2, 99⟩, ⟨3, 3, 5⟩,
        ⟨4, 4, 2⟩] : List Node).reverse.dropWhile
          (isExpired 10)).reverse) ∧
    ∀ k, dictGet [(1, (⟨1, 1, 0⟩ : Node)), (2, ⟨2, 2, 99⟩)] k =
      if k ∈ ((([⟨1, 1, 0⟩, ⟨2, 2, 99⟩, ⟨3, 3, 5⟩,
          ⟨4, 4, 2⟩] : List Node).reverse.takeWhile
            (isExpired 10)).map Node.key) then
        none
      else
        dictGet [(1, ⟨1, 1, 0⟩), (2, ⟨2, 2, 99⟩), (3, ⟨3, 3, 5⟩),
          (4, ⟨4, 4, 2⟩)] k :=
  ⟨by decide, by decide,
   (c8_sweep_maximal_run 10
     [(1, ⟨1, 1, 0⟩), (2, ⟨2, 2, 99⟩), (3, ⟨3, 3, 5⟩), (4, ⟨4, 4, 2⟩)]
     [(1, ⟨1, 1, 0⟩), (2, ⟨2, 2, 99⟩)]
     [⟨1, 1, 0⟩, ⟨2, 2, 99⟩, ⟨3, 3, 5⟩, ⟨4, 4, 2⟩]
     [⟨1, 1, 0⟩, ⟨2, 2, 99⟩] (by decide) (by decide)).1,
   (c8_sweep_maximal_run 10
     [(1, ⟨1, 1, 0⟩), (2, ⟨2, 2, 99⟩), (3, ⟨3, 3, 5⟩), (4, ⟨4, 4, 2⟩)]
     [(1, ⟨1, 1, 0⟩), (2, ⟨2, 2, 99⟩)]
     [⟨1, 1, 0⟩, ⟨2, 2, 99⟩, ⟨3, 3, 5⟩, ⟨4, 4, 2⟩]
     [⟨1, 1, 0⟩, ⟨2, 2, 99⟩] (by decide) (by decide)).2⟩

/-- C9: after any sequence of public operations from a freshly
constructed cache, the key set of the Index is exactly the set of keys of
the entries linked into the chain (a permutation of it), every live entry
appears exactly once in the chain (the chain keys are duplicate-free),
and every Index binding resolves to a node that is linked into the chain
under that key. -/
theorem c9_index_chain_lockstep (cap0 : Int) (ops : List Op)
    (c1 : LRUCache) (h : runOps (LRUCache.init cap0) ops = some c1) :
    (keysOf c1.cache).Perm (c1.chain.map Node.key) ∧
    (c1.chain.map Node.key).Nodup ∧
    (∀ k n, dictGet c1.cache k = some n → n ∈ c1.chain ∧ n.key = k) := by
  have hwf := runOps_WF (WF_init cap0) h
  refine ⟨?_, hwf.2.1, ?_⟩
  · exact (List.perm_ext_iff_of_nodup hwf.1 hwf.2.1).mpr (sync_mem_keys hwf)
  · intro k n hk
    exact sync_get_some hwf hk

/-- Witness for C9 at a concrete run mixing put, get and resize. -/
theorem c9_index_chain_lockstep_witness :
    runOps (LRUCache.init 2)
      [Op.put 1 1 5 0, Op.put 2 2 5 0, Op.get 1 0, Op.resize 1 0] =
      some (⟨1, [(1, ⟨1, 1, 5⟩)], [⟨1, 1, 5⟩]⟩ : LRUCache) ∧
    ((keysOf (⟨1, [(1, ⟨1, 1, 5⟩)], [⟨1, 1, 5⟩]⟩ : LRUCache).cache).Perm
      ((⟨1, [(1, ⟨1, 1, 5⟩)], [⟨1, 1, 5⟩]⟩ :
        LRUCache).chain.map Node.key) ∧
    ((⟨1, [(1, ⟨1, 1, 5⟩)], [⟨1, 1, 5⟩]⟩ :
      LRUCache).chain.map Node.key).Nodup ∧
    (∀ k n,
      dictGet (⟨1, [(1, ⟨1, 1, 5⟩)], [⟨1, 1, 5⟩]⟩ : LRUCache).cache k =
        some n →
      n ∈ (⟨1, [(1, ⟨1, 1, 5⟩)], [⟨1, 1, 5⟩]⟩ : LRUCache).chain ∧
        n.key = k)) :=
  ⟨by decide,
   c9_index_chain_lockstep 2
     [Op.put 1 1 5 0, Op.put 2 2 5 0, Op.get 1 0, Op.resize 1 0]
     (⟨1, [(1, ⟨1, 1, 5⟩)], [⟨1, 1, 5⟩]⟩ : LRUCache) (by decide)⟩

/-- C10: the miss signal of `get` is the integer -1, drawn from the value
type: a key absent from the Index yields -1, and a live (non-expired)
entry whose stored value is -1 also yields -1, so a caller cannot tell a
cached -1 from a miss. -/
theorem c10_miss_signal :
    (∀ (c : LRUCache) (k now : Int),
        dictGet c.cache k = none → (LRUCache.get c k now).2 = -1) ∧
    (∀ (c : LRUCache) (k now : Int) (n : Node),
        dictGet c.cache k = some n → isExpired now n = false →
        n.value = -1 → (LRUCache.get c k now).2 = -1) := by
  constructor
  · intro c k now h
    simp [LRUCache.get, h]
  · intro c k now n h he hv
    simp [LRUCache.get, h, he, hv]

/-- Witness for C10: a miss on an absent key and a hit on a live entry
storing -1 both return -1. -/
theorem c10_miss_signal_witness :
    ((LRUCache.init 3).get 7 0).2 = -1 ∧
    ((⟨1, [(5, ⟨5, -1, 100⟩)], [⟨5, -1, 100⟩]⟩ : LRUCache).get 5 0).2 =
      -1 :=
  ⟨c10_miss_signal.1 (LRUCache.init 3) 7 0 (by decide),
   c10_miss_signal.2 (⟨1, [(5, ⟨5, -1, 100⟩)], [⟨5, -1, 100⟩]⟩ : LRUCache)
     5 0 (⟨5, -1, 100⟩ : Node) (by decide) (by decide) (by decide)⟩
